import Mathlib

/-!
Verification of the price-scraper core (src/main.py) against its
natural-language specification.

The Python program is shallowly embedded:
  * JSON/Python values are the inductive `JVal` (ints and floats kept apart,
    since the code distinguishes them with `isinstance`; float arithmetic is
    modelled by exact rationals `ℚ`);
  * Python dicts are association lists with dict-faithful insertion
    (`dinsert`: overwrite-in-place or append);
  * a Python function that can raise an uncaught exception returns `Option`
    (`none` models the exception propagating out of the run).
-/

namespace PriceScraper

/-! ## Text normalizer: digits (`_PERSIAN_ARABIC_DIGITS`, `to_int_price`) -/

/-- The `_PERSIAN_ARABIC_DIGITS` translation table of src/main.py: Persian
(U+06F0..U+06F9) and Arabic-Indic (U+0660..U+0669) decimal digits map to their
ASCII counterparts, every other character is left unchanged. -/
def translateDigit (c : Char) : Char :=
  if c = '۰' then '0' else if c = '۱' then '1' else if c = '۲' then '2'
  else if c = '۳' then '3' else if c = '۴' then '4' else if c = '۵' then '5'
  else if c = '۶' then '6' else if c = '۷' then '7' else if c = '۸' then '8'
  else if c = '۹' then '9'
  else if c = '٠' then '0' else if c = '١' then '1' else if c = '٢' then '2'
  else if c = '٣' then '3' else if c = '٤' then '4' else if c = '٥' then '5'
  else if c = '٦' then '6' else if c = '٧' then '7' else if c = '٨' then '8'
  else if c = '٩' then '9'
  else c

/-- `text.translate(_PERSIAN_ARABIC_DIGITS)`. -/
def pyTranslate (s : String) : String :=
  String.mk (s.data.map translateDigit)

/-- Value of a list of ASCII digit characters read in base 10, i.e. Python
`int` applied to a nonempty all-digit string. -/
def parseDigits (l : List Char) : Nat :=
  l.foldl (fun n c => 10 * n + (c.toNat - 48)) 0

/-- Worker for `digitRuns`: `cur` is the reversed current run of digits. -/
def digitRunsAux (cur : List Char) : List Char → List (List Char)
  | [] => if cur.isEmpty then [] else [cur.reverse]
  | c :: t =>
    if c.isDigit then digitRunsAux (c :: cur) t
    else if cur.isEmpty then digitRunsAux [] t
    else cur.reverse :: digitRunsAux [] t

/-- `re.findall(r"[0-9]+", s)`: the maximal runs of ASCII digits of `s`,
in order. -/
def digitRuns (l : List Char) : List (List Char) :=
  digitRunsAux [] l

/-- `to_int_price` of src/main.py: translate Persian/Arabic digits, find all
ASCII-digit runs, join them and parse the result as an integer; `none` when
the text is empty or has no digit (the `int` call itself cannot fail on a
nonempty digit string). -/
def to_int_price (text : String) : Option Nat :=
  if text = "" then none
  else
    let t := pyTranslate text
    let runs := digitRuns t.data
    if runs.isEmpty then none else some (parseDigits runs.flatten)

/-- The behaviour claimed by the spec for `extractInteger` (claim C8), stated
in the spec's own words: translate Persian/Arabic decimal digits to ASCII,
drop all non-digit characters, concatenate the remaining digits and parse
them as a positive integer; absent when no digit remains. -/
def extract_integer_spec (text : String) : Option Nat :=
  let ds := (pyTranslate text).data.filter Char.isDigit
  if ds.isEmpty then none else some (parseDigits ds)

theorem digitRunsAux_join (l : List Char) :
    ∀ cur, (digitRunsAux cur l).flatten = cur.reverse ++ l.filter Char.isDigit := by
  induction l with
  | nil =>
      intro cur
      by_cases h : cur.isEmpty
      · simp [digitRunsAux, h, List.isEmpty_iff.mp h]
      · simp [digitRunsAux, h]
  | cons c t ih =>
      intro cur
      by_cases hd : c.isDigit
      · simp [digitRunsAux, hd, ih]
      · by_cases h : cur.isEmpty
        · simp [digitRunsAux, hd, h, ih, List.isEmpty_iff.mp h]
        · simp [digitRunsAux, hd, h, ih]

theorem digitRuns_join (l : List Char) :
    (digitRuns l).flatten = l.filter Char.isDigit := by
  simpa using digitRunsAux_join l []

theorem digitRunsAux_ne_nil (l : List Char) :
    ∀ cur, ∀ r ∈ digitRunsAux cur l, r ≠ [] := by
  induction l with
  | nil =>
      intro cur r hr
      by_cases h : cur.isEmpty
      · simp [digitRunsAux, h] at hr
      · simp [digitRunsAux, h] at hr
        subst hr
        simpa [List.isEmpty_iff] using h
  | cons c t ih =>
      intro cur r hr
      by_cases hd : c.isDigit
      · exact ih _ r (by simpa [digitRunsAux, hd] using hr)
      · by_cases h : cur.isEmpty
        · exact ih _ r (by simpa [digitRunsAux, hd, h] using hr)
        · simp [digitRunsAux, hd, h] at hr
          rcases hr with hr | hr
          · subst hr
            simpa [List.isEmpty_iff] using h
          · exact ih _ r hr

theorem digitRuns_join_nil_iff (l : List Char) :
    (digitRuns l).isEmpty = (l.filter Char.isDigit).isEmpty := by
  rcases h : digitRuns l with _ | ⟨r, rs⟩
  · have := digitRuns_join l
    rw [h] at this
    simp [← this]
  · have hjoin := digitRuns_join l
    rw [h] at hjoin
    have hne : r ≠ [] := digitRunsAux_ne_nil l [] r (by rw [← digitRuns] ; simp [h])
    have : (l.filter Char.isDigit) ≠ [] := by
      rw [← hjoin]
      simp only [List.flatten_cons]
      intro hcontra
      exact hne (List.append_eq_nil.mp hcontra).1
    simp [List.isEmpty_iff, this]

/-- C8: for every text string, `to_int_price` returns the same integer as the
all-ASCII equivalent with separators stripped: Persian/Arabic decimal digits
are translated to ASCII, all non-digit characters are dropped, the remaining
digit runs are concatenated and parsed as a positive integer; it returns
`none` when the text contains no digit (and it supports no sign or decimal
point: only the digit characters are read). -/
theorem to_int_price_eq_extract_integer_spec (text : String) :
    to_int_price text = extract_integer_spec text := by
  by_cases h : text = ""
  · subst h; rfl
  · simp only [to_int_price, extract_integer_spec, h, if_false]
    rw [digitRuns_join_nil_iff, digitRuns_join]

/-! ## Data model: Python/JSON values and dicts -/

/-- A Python/JSON value as the program manipulates it.  Ints and floats are
separate constructors because the code distinguishes them via `isinstance`;
float arithmetic is modelled by exact rationals.  (JSON booleans are not
modelled; no claim depends on them.) -/
inductive JVal where
  | vint : Int → JVal
  | vflt : ℚ → JVal
  | vstr : String → JVal
  | vnull : JVal
  | vobj : List (String × JVal) → JVal
  | varr : List JVal → JVal

/-- The field dict of one rate record. -/
abbrev Fields := List (String × JVal)

/-- The `rates` dict of the payload, key → record.  (For the pipeline
operations every record is a dict; `validate_payload` below additionally
handles non-dict entries via `JVal`.) -/
abbrev Rates := List (String × Fields)

/-- Dict lookup `d.get(k)` on an association list (first binding wins;
a Python dict has unique keys, so this is exact). -/
def alook {α : Type} : List (String × α) → String → Option α
  | [], _ => none
  | (k', v) :: t, k => if k' = k then some v else alook t k

/-- Dict assignment `d[k] = v`: overwrite in place if the key is present,
append at the end otherwise (Python dicts keep the insertion position of an
overwritten key). -/
def dinsert {α : Type} : List (String × α) → String → α → List (String × α)
  | [], k, v => [(k, v)]
  | (k', v') :: t, k, v =>
    if k' = k then (k, v) :: t else (k', v') :: dinsert t k v

/-- In-place mutation of the record stored at `key` (`rates[key][...] = ...`
mutates the record object; the key set of the dict is untouched). -/
def updRecord : Rates → String → (Fields → Fields) → Rates
  | [], _, _ => []
  | (k0, r0) :: t, key, f =>
    (if k0 = key then (k0, f r0) else (k0, r0)) :: updRecord t key f

/-- The key list of a rates dict. -/
def keysOf (rs : Rates) : List String :=
  rs.map Prod.fst

/-- Python truthiness of a value (`if v:`). -/
def truthy : JVal → Bool
  | JVal.vint n => n ≠ 0
  | JVal.vflt q => q ≠ 0
  | JVal.vstr s => s ≠ ""
  | JVal.vnull => false
  | JVal.vobj fs => !fs.isEmpty
  | JVal.varr l => !l.isEmpty

/-- Python `str()` of a value.  Exact for strings, ints and `None` (the cases
the claims exercise); for floats and containers only the facts that the
result is nonempty and is none of "", "currency", "crypto", "gold" matter to
the program, and the stand-ins below have those properties. -/
def pyStr : JVal → String
  | JVal.vstr s => s
  | JVal.vint n => toString n
  | JVal.vflt q => "float " ++ toString q
  | JVal.vnull => "None"
  | JVal.vobj _ => "<dict>"
  | JVal.varr _ => "<list>"

/-- `isinstance(v, (int, float))` together with `float(v)` for a numeric `v`. -/
def numVal : JVal → Option ℚ
  | JVal.vint n => some (n : ℚ)
  | JVal.vflt q => some q
  | _ => none

/-! ## Text normalizer: `norm_key` -/

/-- ASCII whitespace as Python's `str.strip` / `\s` see it (the non-ASCII
whitespace Python also strips does not occur in the data of interest). -/
def isPySpace (c : Char) : Bool :=
  c = ' ' || c = '\t' || c = '\n' || c = '\r' || c = '\x0b' || c = '\x0c'

/-- `s.strip()`. -/
def stripList (l : List Char) : List Char :=
  ((l.dropWhile isPySpace).reverse.dropWhile isPySpace).reverse

/-- Characters kept by `re.sub(r"[^a-z0-9]+", " ", s)`. -/
def isLowAlnum (c : Char) : Bool :=
  ('a' ≤ c && c ≤ 'z') || ('0' ≤ c && c ≤ '9')

/-- `s.replace("½", "half ").replace("¼", "quarter ")` (the first replacement
introduces no `¼`, so one simultaneous pass is exact). -/
def expandGlyphs : List Char → List Char
  | [] => []
  | c :: t =>
    if c = '½' then 'h' :: 'a' :: 'l' :: 'f' :: ' ' :: expandGlyphs t
    else if c = '¼' then 'q' :: 'u' :: 'a' :: 'r' :: 't' :: 'e' :: 'r' :: ' ' :: expandGlyphs t
    else c :: expandGlyphs t

/-- `re.sub(r"[^a-z0-9]+", " ", s)`: each maximal run of non-alphanumeric
characters becomes a single space; `inRun` records whether the previous
character was part of such a run. -/
def subNonAlnum (inRun : Bool) : List Char → List Char
  | [] => []
  | c :: t =>
    if isLowAlnum c then c :: subNonAlnum false t
    else if inRun then subNonAlnum true t
    else ' ' :: subNonAlnum true t

/-- `re.sub(r"\s+", " ", s)`. -/
def subSpaces (inRun : Bool) : List Char → List Char
  | [] => []
  | c :: t =>
    if isPySpace c then
      if inRun then subSpaces true t else ' ' :: subSpaces true t
    else c :: subSpaces false t

/-- `norm_key` of src/main.py: strip, lowercase, ZWNJ to space, expand the
half/quarter glyphs, collapse non-alphanumeric runs to single spaces,
collapse whitespace runs, strip.  (Lowercasing is ASCII; the Persian letters
the data contains are unaffected by Python's `lower` as well.) -/
def norm_key (s : String) : String :=
  let l := (stripList s.data).map Char.toLower
  let l := l.map (fun c => if c.toNat = 0x200c then ' ' else c)
  let l := expandGlyphs l
  let l := subNonAlnum false l
  let l := subSpaces false l
  String.mk (stripList l)

/-! ## Substring containment (Python `in` on strings) -/

/-- Does the list start with the given pattern? -/
def startsWithList : List Char → List Char → Bool
  | _, [] => true
  | [], _ :: _ => false
  | c :: t, p :: ps => c = p && startsWithList t ps

/-- Does the pattern occur somewhere in the list? -/
def hasSubList (needle : List Char) : List Char → Bool
  | [] => startsWithList [] needle
  | c :: t => startsWithList (c :: t) needle || hasSubList needle t

/-- Python `sub in s`. -/
def strContains (s sub : String) : Bool :=
  hasSubList sub.data s.data

/-! ## Bonbast parser: coin-name canonicalization (parse_bonbast_html) -/

/-- The coin-name normalization chain inside `parse_bonbast_html`
(src/main.py lines 178-189), verbatim first-match precedence. -/
def canonicalize_coin_name (name : String) : String :=
  if strContains name "Emami" then "Emami"
  else if strContains name "Azadi" && !strContains name "Gera"
       && !strContains name "½" && !strContains name "¼" then "Azadi"
  else if strContains name "Half" then "½ Azadi"
  else if strContains name "Quarter" then "¼ Azadi"
  else if strContains name "Gram" && strContains name "Coin" then "Gerami"
  else name

/-- `COIN_NAME_TO_KEY` of src/main.py. -/
def COIN_NAME_TO_KEY : List (String × String) :=
  [("Emami", "coin_emami"),
   ("Azadi", "coin_azadi"),
   ("½ Azadi", "coin_half_azadi"),
   ("¼ Azadi", "coin_quarter_azadi"),
   ("Gerami", "coin_gerami")]

/-- `TOP_NAME_TO_KEY` of src/main.py. -/
def TOP_NAME_TO_KEY : List (String × String) :=
  [("Gold Gram 18k", "gold_gram_18k"),
   ("Gold Mithqal", "gold_mithqal"),
   ("Gold Ounce", "gold_ounce")]

/-! ## Python float() conversion -/

/-- Python `float()` applied to a string, for plain decimal literals
(optional sign, digits, optional dot): the only string shapes the program's
data can carry.  Other strings — which real `float()` may or may not parse
(exponents, "inf", underscores) — are mapped to `none` (an exception). -/
def parse_float_str (s : String) : Option ℚ :=
  let l := stripList s.data
  let negAndRest : Bool × List Char :=
    match l with
    | '-' :: t => (true, t)
    | '+' :: t => (false, t)
    | _ => (false, l)
  let l1 := negAndRest.2
  let intPart := l1.takeWhile Char.isDigit
  let rest := l1.dropWhile Char.isDigit
  let mag : Option ℚ :=
    match rest with
    | [] => if intPart.isEmpty then none else some (parseDigits intPart : ℚ)
    | '.' :: frac =>
      if frac.all Char.isDigit && !(intPart.isEmpty && frac.isEmpty) then
        some ((parseDigits intPart : ℚ) + (parseDigits frac : ℚ) / (10 ^ frac.length))
      else none
    | _ => none
  mag.map (fun m => if negAndRest.1 then -m else m)

/-- Python `float(v)`: exception (`none`) on `None`, containers, and
unparsable strings. -/
def pyFloat : JVal → Option ℚ
  | JVal.vint n => some (n : ℚ)
  | JVal.vflt q => some q
  | JVal.vstr s => parse_float_str s
  | _ => none

/-! ## Name resolver: indices over the record set -/

/-- `str(x)` of an optional value (`str(r.get("kind"))`: a missing key gives
`str(None) = "None"`). -/
def pyStrN : Option JVal → String
  | none => "None"
  | some v => pyStr v

/-- `str(x or "")` of an optional value: a missing key or falsy value gives
the empty string. -/
def pyStrOrEmpty : Option JVal → String
  | none => ""
  | some v => if truthy v then pyStr v else ""

/-- `str(r.get("kind") or "")`, used by the reconciler and the validator. -/
def kindStr (r : Fields) : String :=
  pyStrOrEmpty (alook r "kind")

/-- `build_title_index` of src/main.py: fold the records, keeping those whose
`str(kind)` equals the requested kind and whose title is truthy, and map the
normalized title to the record key (later records overwrite earlier ones,
like repeated dict assignment). -/
def build_title_index (rates : Rates) (kind : String) : List (String × String) :=
  rates.foldl
    (fun idx p =>
      if pyStrN (alook p.2 "kind") ≠ kind then idx
      else
        let title := pyStrOrEmpty (alook p.2 "title")
        if title = "" then idx
        else dinsert idx (norm_key title) p.1)
    []

/-- The `currency_fa_idx` dict comprehension of `update_from_bonbast`:
records with `kind == "currency"` (value equality against the string) and a
truthy `fa` field, mapping `norm_key(str(fa))` to the key. -/
def build_fa_index (rates : Rates) : List (String × String) :=
  rates.foldl
    (fun idx p =>
      match alook p.2 "kind", alook p.2 "fa" with
      | some (JVal.vstr s), some fv =>
        if s = "currency" && truthy fv then dinsert idx (norm_key (pyStr fv)) p.1
        else idx
      | _, _ => idx)
    []

/-- Python `a or b` on optional strings (`None` and `""` are falsy). -/
def pyOr (a b : Option String) : Option String :=
  match a with
  | some s => if s = "" then b else some s
  | none => b

/-- The key resolution of `update_from_bonbast`: the static coin/top alias
tables first, then (if that was falsy) the normalized title and fa indices. -/
def bonbast_resolve (tIdx fIdx : List (String × String)) (name : String) :
    Option String :=
  let k1 := pyOr (alook COIN_NAME_TO_KEY name) (alook TOP_NAME_TO_KEY name)
  match k1 with
  | some s =>
    if s = "" then pyOr (alook tIdx (norm_key name)) (alook fIdx (norm_key name))
    else some s
  | none => pyOr (alook tIdx (norm_key name)) (alook fIdx (norm_key name))

/-! ## Rate reconciler: update_from_bonbast -/

/-- One iteration of the `update_from_bonbast` loop: resolve the scraped
name; skip when unresolved, falsy, or not an existing key; otherwise
overwrite `record.price` with the scraped integer. -/
def bonbast_step (tIdx fIdx : List (String × String)) (rs : Rates)
    (item : String × Int) : Rates :=
  match bonbast_resolve tIdx fIdx item.1 with
  | none => rs
  | some key =>
    if key = "" then rs
    else
      match alook rs key with
      | none => rs
      | some _ => updRecord rs key (fun r => dinsert r "price" (JVal.vint item.2))

/-- `update_from_bonbast` of src/main.py (the indices are built once from the
incoming record set, as in the source). -/
def update_from_bonbast (rates : Rates) (bonbast : List (String × Int)) : Rates :=
  let tIdx := build_title_index rates "currency"
  let fIdx := build_fa_index rates
  bonbast.foldl (bonbast_step tIdx fIdx) rates

/-! ## Rate reconciler: update_from_crypto_csv -/

/-- The `usd_local` computation at the head of `update_from_crypto_csv`:
`float(usd.get("price")) if usd and usd.get("price") else None`.
Outer `none` = the `float()` call raised; `some none` = the conditional chose
`None` (no usd record, or a falsy price). -/
def usd_local_of (rates : Rates) : Option (Option ℚ) :=
  match alook rates "usd" with
  | none => some none
  | some u =>
    match alook u "price" with
    | none => some none
    | some v => if truthy v then (pyFloat v).map some else some none

/-- One iteration of the `update_from_crypto_csv` loop: resolve the CSV name
through the crypto title index; skip unresolved names, falsy keys, and
missing or falsy records; otherwise set `usdPrice`, `change24h` and
`price = usdPrice * usd_local`. -/
def csv_step (idx : List (String × String)) (usd_local : ℚ) (rs : Rates)
    (item : String × ℚ × ℚ) : Rates :=
  match alook idx (norm_key item.1) with
  | none => rs
  | some key =>
    if key = "" then rs
    else
      match alook rs key with
      | none => rs
      | some r =>
        if r.isEmpty then rs
        else
          updRecord rs key (fun r0 =>
            dinsert
              (dinsert (dinsert r0 "usdPrice" (JVal.vflt item.2.1))
                "change24h" (JVal.vflt item.2.2))
              "price" (JVal.vflt (item.2.1 * usd_local)))

/-- The loop of `update_from_crypto_csv`, with the already-computed local USD
price. -/
def csv_apply (rates : Rates) (crypto : List (String × ℚ × ℚ))
    (usd_local : ℚ) : Rates :=
  crypto.foldl (csv_step (build_title_index rates "crypto") usd_local) rates

/-- `update_from_crypto_csv` of src/main.py.  `none` models the run dying on
an uncaught `float()` exception while reading the usd price; otherwise a
missing/falsy usd price falls back to `usd_local = 1.0` (including a parsed
`0.0`, re-tested by `if not usd_local`). -/
def update_from_crypto_csv (rates : Rates) (crypto : List (String × ℚ × ℚ)) :
    Option Rates :=
  match usd_local_of rates with
  | none => none
  | some lo =>
    let usd_local : ℚ :=
      match lo with
      | none => 1
      | some q => if q = 0 then 1 else q
    some (csv_apply rates crypto usd_local)

/-! ## Rate reconciler: recompute_usd_relations -/

/-- The guard at the head of `recompute_usd_relations`: `usd_price` is set
exactly when the usd record exists, is truthy, and its `price` is a nonzero
number. -/
def usd_guard (rates : Rates) : Option ℚ :=
  match alook rates "usd" with
  | none => none
  | some u =>
    if u.isEmpty then none
    else
      match alook u "price" with
      | none => none
      | some v =>
        match numVal v with
        | none => none
        | some q => if q = 0 then none else some q

/-- `float(r.get("price", 0.0))`: the dict default makes a missing key `0.0`;
a present value goes through `float()` and may raise. -/
def pyFloatD : Option JVal → Option ℚ
  | none => some 0
  | some v => pyFloat v

/-- The body of the `recompute_usd_relations` loop for one record.  `none`
models the `float()` exception on a currency record whose `price` is an
unconvertible value. -/
def recompute_one (key : String) (r : Fields) (usd_price : ℚ) : Option Fields :=
  if kindStr r = "currency" then
    if key = "usd" then some (dinsert r "usdPrice" (JVal.vint 1))
    else if (alook r "usdPrice").isSome then
      match pyFloatD (alook r "price") with
      | none => none
      | some q => some (dinsert r "usdPrice" (JVal.vflt (q / usd_price)))
    else some r
  else if kindStr r = "crypto" then
    match (alook r "usdPrice").bind numVal with
    | some u => some (dinsert r "price" (JVal.vflt (u * usd_price)))
    | none => some r
  else some r

/-- The `recompute_usd_relations` loop over all records (record keys are
never touched; an exception in any record aborts the run). -/
def recompute_all (usd_price : ℚ) : Rates → Option Rates
  | [] => some []
  | (k, r) :: t =>
    match recompute_one k r usd_price with
    | none => none
    | some r' =>
      match recompute_all usd_price t with
      | none => none
      | some t' => some ((k, r') :: t')

/-- The `gold_ounce` special case at the end of `recompute_usd_relations`:
when the record exists, is truthy, has a numeric price, the usd price is
nonzero, and the record carries a `usdPrice` field, backward-derive
`usdPrice = price / usd_price`. -/
def gold_ounce_fix (usd_price : ℚ) (rates : Rates) : Rates :=
  match alook rates "gold_ounce" with
  | none => rates
  | some go =>
    if go.isEmpty then rates
    else
      match (alook go "price").bind numVal with
      | none => rates
      | some g =>
        if usd_price = 0 then rates
        else if (alook go "usdPrice").isSome then
          updRecord rates "gold_ounce"
            (fun r => dinsert r "usdPrice" (JVal.vflt (g / usd_price)))
        else rates

/-- `recompute_usd_relations` of src/main.py: skip wholesale when the usd
anchor is missing or falsy, otherwise run the per-record loop and then the
gold_ounce special case. -/
def recompute_usd_relations (rates : Rates) : Option Rates :=
  match usd_guard rates with
  | none => some rates
  | some p =>
    match recompute_all p rates with
    | none => none
    | some rs2 => some (gold_ounce_fix p rs2)

/-! ## The full update pipeline of main() -/

/-- The scrape-application part of `main()`: apply the bonbast scrape when
nonempty, then the crypto CSV when nonempty. -/
def apply_sources (rates : Rates) (bonbast : List (String × Int))
    (crypto : List (String × ℚ × ℚ)) : Option Rates :=
  let r1 := if bonbast.isEmpty then rates else update_from_bonbast rates bonbast
  if crypto.isEmpty then some r1 else update_from_crypto_csv r1 crypto

/-- The record-set part of `main()`: apply the bonbast scrape when nonempty,
then the crypto CSV when nonempty, then recompute the USD relations. -/
def run_pipeline (rates : Rates) (bonbast : List (String × Int))
    (crypto : List (String × ℚ × ℚ)) : Option Rates :=
  match apply_sources rates bonbast crypto with
  | none => none
  | some r2 => recompute_usd_relations r2

/-- One step of the top-level merge in `main()`:
`if k not in out_obj: out_obj[k] = v`. -/
def merge_step (acc : List (String × JVal)) (p : String × JVal) :
    List (String × JVal) :=
  if (alook acc p.1).isSome then acc else acc ++ [p]

/-- The top-level output assembly of `main()`: `out_obj` holds the updated
`fetchedAtMs`, `source` and `rates`, and every other top-level key of the
template is merged in unchanged. -/
def merge_top (template : List (String × JVal)) (fetched sourceVal ratesVal : JVal) :
    List (String × JVal) :=
  template.foldl merge_step
    [("fetchedAtMs", fetched), ("source", sourceVal), ("rates", ratesVal)]

/-! ## Payload validator -/

/-- The `unit` check of `validate_payload`: `unit = r.get("unit", 1)` must be
an `int` that is at least 1. -/
def unit_ok (r : Fields) : Bool :=
  match (alook r "unit").getD (JVal.vint 1) with
  | JVal.vint n => 1 ≤ n
  | _ => false

/-- The `price` check of `validate_payload`: `r.get("price")` must not be
`None` (missing key or null value) and must be an `int` or `float`. -/
def price_ok (r : Fields) : Bool :=
  match alook r "price" with
  | some (JVal.vint _) => true
  | some (JVal.vflt _) => true
  | _ => false

/-- The `kind` check of `validate_payload`: `str(r.get("kind") or "")` must
be empty or one of the allowed kinds. -/
def kind_ok (r : Fields) : Bool :=
  let kind := kindStr r
  !(kind ≠ "" && !(kind = "currency" || kind = "crypto" || kind = "gold"))

/-- The per-record body of the `validate_payload` loop, returning the
specific rejection reason of the first failed check, in source order. -/
def record_reason (p : String × JVal) : Option String :=
  match p.2 with
  | JVal.vobj r =>
    if !kind_ok r then some ("rate " ++ p.1 ++ " invalid kind: " ++ kindStr r)
    else if !unit_ok r then some ("rate " ++ p.1 ++ " invalid unit")
    else if !price_ok r then some ("rate " ++ p.1 ++ " invalid price")
    else none
  | _ => some ("rate " ++ p.1 ++ " not an object")

/-- The `validate_payload` loop: the reason of the first bad record. -/
def find_bad : List (String × JVal) → Option String
  | [] => none
  | p :: t =>
    match record_reason p with
    | some m => some m
    | none => find_bad t

/-- `validate_payload` of src/main.py.  (`payload.rates` is a dict by the
construction in `load_template`, so the `isinstance(rates, dict)` half of the
first check is vacuous in this model.) -/
def validate_payload (rates : List (String × JVal)) : Bool × String :=
  if rates.isEmpty then (false, "rates missing/invalid")
  else if rates.length < 80 then (false, "rates too small: " ++ toString rates.length)
  else
    match find_bad rates with
    | some msg => (false, msg)
    | none => (true, "ok")

/-! ## Claim-side rejection conditions for C6 (stated from the claim's words) -/

/-- Claim C6's "some record is not an object". -/
def not_an_object (v : JVal) : Prop :=
  ∀ fs, v ≠ JVal.vobj fs

/-- Claim C6's "some record's kind is present and outside
currency/crypto/gold", read literally: the `kind` field exists and its value
is none of the three allowed strings. -/
def kind_bad_claim (fs : Fields) : Prop :=
  ∃ v, alook fs "kind" = some v ∧ v ≠ JVal.vstr "currency" ∧
    v ≠ JVal.vstr "crypto" ∧ v ≠ JVal.vstr "gold"

/-- The amended kind condition, as the code enforces it: the kind coerces
(string coercion of a truthy value, falsy values giving "") to a nonempty
string outside the allowed set. -/
def kind_bad_amended (fs : Fields) : Prop :=
  kindStr fs ≠ "" ∧ kindStr fs ≠ "currency" ∧ kindStr fs ≠ "crypto" ∧
    kindStr fs ≠ "gold"

/-- Claim C6's "some record's unit is not a positive integer" (for a present
unit field; an absent unit defaults to 1 and is fine). -/
def unit_bad_claim (fs : Fields) : Prop :=
  ∃ v, alook fs "unit" = some v ∧ ¬ ∃ n : Int, 1 ≤ n ∧ v = JVal.vint n

/-- Claim C6's "some record's price is missing or non-numeric" (a JSON null
price is `None` to the code, i.e. missing). -/
def price_bad_claim (fs : Fields) : Prop :=
  alook fs "price" = none ∨ ∃ v, alook fs "price" = some v ∧ numVal v = none

/-- One record violating a per-record condition of claim C6, literally. -/
def record_bad_claim (p : String × JVal) : Prop :=
  not_an_object p.2 ∨
    ∃ fs, p.2 = JVal.vobj fs ∧
      (kind_bad_claim fs ∨ unit_bad_claim fs ∨ price_bad_claim fs)

/-- One record violating a per-record condition of the amended claim C6. -/
def record_bad_amended (p : String × JVal) : Prop :=
  not_an_object p.2 ∨
    ∃ fs, p.2 = JVal.vobj fs ∧
      (kind_bad_amended fs ∨ unit_bad_claim fs ∨ price_bad_claim fs)

/-- The rejection condition of claim C6, literally. -/
def rejects_spec_claim (rates : List (String × JVal)) : Prop :=
  rates = [] ∨ rates.length ≤ 79 ∨ ∃ p ∈ rates, record_bad_claim p

/-- The rejection condition of the amended claim C6. -/
def rejects_spec_amended (rates : List (String × JVal)) : Prop :=
  rates = [] ∨ rates.length ≤ 79 ∨ ∃ p ∈ rates, record_bad_amended p

/-! ## Dictionary lemmas -/

theorem alook_dinsert_self {α : Type} (d : List (String × α)) (k : String) (v : α) :
    alook (dinsert d k v) k = some v := by
  induction d with
  | nil => simp [dinsert, alook]
  | cons p t ih =>
    obtain ⟨k', v'⟩ := p
    by_cases h : k' = k
    · simp [dinsert, h, alook]
    · simp [dinsert, h, alook, ih]

theorem alook_dinsert_ne {α : Type} (d : List (String × α)) (k k' : String) (v : α)
    (h : k' ≠ k) : alook (dinsert d k v) k' = alook d k' := by
  induction d with
  | nil => simp [dinsert, alook, Ne.symm h]
  | cons p t ih =>
    obtain ⟨k0, v0⟩ := p
    by_cases h0 : k0 = k
    · subst h0
      simp [dinsert, alook, Ne.symm h]
    · simp [dinsert, h0, alook, ih]

theorem dinsert_ne_nil {α : Type} (d : List (String × α)) (k : String) (v : α) :
    dinsert d k v ≠ [] := by
  cases d with
  | nil => simp [dinsert]
  | cons p t =>
    obtain ⟨k', v'⟩ := p
    by_cases h : k' = k <;> simp [dinsert, h]

theorem alook_some_ne_nil {α : Type} {d : List (String × α)} {k : String} {v : α}
    (h : alook d k = some v) : d ≠ [] := by
  intro hnil
  subst hnil
  simp [alook] at h

theorem alook_updRecord (rs : Rates) (key : String) (f : Fields → Fields)
    (k : String) :
    alook (updRecord rs key f) k =
      if k = key then (alook rs k).map f else alook rs k := by
  induction rs with
  | nil => by_cases hk : k = key <;> simp [updRecord, alook, hk]
  | cons p t ih =>
    obtain ⟨k0, r0⟩ := p
    simp only [updRecord]
    by_cases h0 : k0 = key
    · rw [if_pos h0]
      by_cases hk : k0 = k
      · subst hk
        have hkey : k0 = key := h0
        simp [alook, hkey]
      · simp [alook, hk, ih]
    · rw [if_neg h0]
      by_cases hk : k0 = k
      · subst hk
        have : ¬k0 = key := h0
        simp [alook, this]
      · simp [alook, hk, ih]

theorem keysOf_updRecord (rs : Rates) (key : String) (f : Fields → Fields) :
    keysOf (updRecord rs key f) = keysOf rs := by
  induction rs with
  | nil => rfl
  | cons p t ih =>
    obtain ⟨k0, r0⟩ := p
    by_cases h0 : k0 = key <;> simp [updRecord, keysOf, h0] <;>
      simpa [keysOf] using ih

/-! ## Lemmas about recompute_usd_relations -/

theorem recompute_one_cases {key : String} {r : Fields} {P : ℚ} {r' : Fields}
    (h : recompute_one key r P = some r') :
    r' = r ∨ (∃ v, r' = dinsert r "usdPrice" v) ∨
      (kindStr r = "crypto" ∧ ∃ v, r' = dinsert r "price" v) := by
  unfold recompute_one at h
  split_ifs at h with h1 h2 h3
  · exact Or.inr (Or.inl ⟨_, (Option.some.inj h).symm⟩)
  · cases hq : pyFloatD (alook r "price") with
    | none => rw [hq] at h; cases h
    | some q =>
      rw [hq] at h
      exact Or.inr (Or.inl ⟨_, (Option.some.inj h).symm⟩)
  · exact Or.inl (Option.some.inj h).symm
  · cases hu : (alook r "usdPrice").bind numVal with
    | none => rw [hu] at h; exact Or.inl (Option.some.inj h).symm
    | some u =>
      rw [hu] at h
      exact Or.inr (Or.inr ⟨by assumption, _, (Option.some.inj h).symm⟩)
  · exact Or.inl (Option.some.inj h).symm

theorem recompute_one_alook_other {key : String} {r : Fields} {P : ℚ} {r' : Fields}
    (h : recompute_one key r P = some r') {f : String}
    (hf1 : f ≠ "price") (hf2 : f ≠ "usdPrice") :
    alook r' f = alook r f := by
  rcases recompute_one_cases h with h' | ⟨v, h'⟩ | ⟨_, v, h'⟩ <;> subst h'
  · rfl
  · exact alook_dinsert_ne _ _ _ _ hf2
  · exact alook_dinsert_ne _ _ _ _ hf1

theorem recompute_one_kindStr {key : String} {r : Fields} {P : ℚ} {r' : Fields}
    (h : recompute_one key r P = some r') : kindStr r' = kindStr r := by
  unfold kindStr
  rw [recompute_one_alook_other h (by decide) (by decide)]

theorem recompute_one_price_of_ne_crypto {key : String} {r : Fields} {P : ℚ}
    {r' : Fields} (h : recompute_one key r P = some r')
    (hk : kindStr r ≠ "crypto") : alook r' "price" = alook r "price" := by
  rcases recompute_one_cases h with h' | ⟨v, h'⟩ | ⟨hc, v, h'⟩
  · subst h'; rfl
  · subst h'; exact alook_dinsert_ne _ _ _ _ (by decide)
  · exact absurd hc hk

theorem recompute_one_crypto_eq {key : String} {r : Fields} {P : ℚ}
    (hk : kindStr r = "crypto") :
    recompute_one key r P =
      match (alook r "usdPrice").bind numVal with
      | some u => some (dinsert r "price" (JVal.vflt (u * P)))
      | none => some r := by
  simp only [recompute_one]
  rw [hk]
  simp

theorem recompute_one_usd_currency {r : Fields} {P : ℚ}
    (hk : kindStr r = "currency") :
    recompute_one "usd" r P = some (dinsert r "usdPrice" (JVal.vint 1)) := by
  simp only [recompute_one]
  rw [hk]
  simp

theorem recompute_one_other_kind {key : String} {r : Fields} {P : ℚ}
    (h1 : kindStr r ≠ "currency") (h2 : kindStr r ≠ "crypto") :
    recompute_one key r P = some r := by
  simp only [recompute_one]
  rw [if_neg h1, if_neg h2]

theorem recompute_all_keys {P : ℚ} :
    ∀ {rs rs' : Rates}, recompute_all P rs = some rs' → keysOf rs' = keysOf rs := by
  intro rs
  induction rs with
  | nil => intro rs' h; cases h; rfl
  | cons p t ih =>
    obtain ⟨k0, r0⟩ := p
    intro rs' h
    unfold recompute_all at h
    cases h1 : recompute_one k0 r0 P with
    | none => rw [h1] at h; cases h
    | some r0' =>
      rw [h1] at h
      cases h2 : recompute_all P t with
      | none => rw [h2] at h; cases h
      | some t' =>
        rw [h2] at h
        cases h
        simp only [keysOf, List.map_cons]
        rw [show List.map Prod.fst t' = List.map Prod.fst t from ih h2]

theorem recompute_all_alook {P : ℚ} :
    ∀ {rs rs' : Rates}, recompute_all P rs = some rs' →
      ∀ k, alook rs' k = (alook rs k).bind (fun r => recompute_one k r P) := by
  intro rs
  induction rs with
  | nil => intro rs' h k; cases h; rfl
  | cons p t ih =>
    obtain ⟨k0, r0⟩ := p
    intro rs' h k
    unfold recompute_all at h
    cases h1 : recompute_one k0 r0 P with
    | none => rw [h1] at h; cases h
    | some r0' =>
      rw [h1] at h
      cases h2 : recompute_all P t with
      | none => rw [h2] at h; cases h
      | some t' =>
        rw [h2] at h
        cases h
        by_cases hk : k0 = k
        · subst hk
          simp [alook, h1]
        · simp [alook, hk, ih h2 k]

theorem usd_guard_eq_some {rates : Rates} {u : Fields} {pv : JVal} {q : ℚ}
    (hu : alook rates "usd" = some u) (hp : alook u "price" = some pv)
    (hq : numVal pv = some q) (h0 : q ≠ 0) :
    usd_guard rates = some q := by
  have he : u.isEmpty = false := by
    cases u
    · simp [alook] at hp
    · simp
  unfold usd_guard
  rw [hu]
  simp [he, hp, hq, h0]

theorem usd_guard_none_iff (rates : Rates) :
    usd_guard rates = none ↔
      alook rates "usd" = none ∨
        ∃ u, alook rates "usd" = some u ∧
          (alook u "price" = none ∨
            ∃ v, alook u "price" = some v ∧ (numVal v = none ∨ numVal v = some 0)) := by
  constructor
  · intro h
    cases hu : alook rates "usd" with
    | none => exact Or.inl rfl
    | some u =>
      refine Or.inr ⟨u, rfl, ?_⟩
      cases hp : alook u "price" with
      | none => exact Or.inl rfl
      | some v =>
        refine Or.inr ⟨v, rfl, ?_⟩
        cases hq : numVal v with
        | none => exact Or.inl rfl
        | some q =>
          right
          by_cases h0 : q = 0
          · rw [h0]
          · exact absurd h (by simp [usd_guard_eq_some hu hp hq h0])
  · intro h
    unfold usd_guard
    rcases h with h | ⟨u, hu, h⟩
    · rw [h]
    · rw [hu]
      by_cases he : u.isEmpty
      · simp [he]
      · rw [Bool.not_eq_true] at he
        rcases h with hp | ⟨v, hp, hq⟩
        · simp [he, hp]
        · rcases hq with hq | hq <;> simp [he, hp, hq]

theorem recompute_of_guard_none {rates : Rates} (h : usd_guard rates = none) :
    recompute_usd_relations rates = some rates := by
  simp [recompute_usd_relations, h]

theorem recompute_some_cases {rates out : Rates}
    (h : recompute_usd_relations rates = some out) :
    (usd_guard rates = none ∧ out = rates) ∨
      ∃ p rs2, usd_guard rates = some p ∧ recompute_all p rates = some rs2 ∧
        out = gold_ounce_fix p rs2 := by
  unfold recompute_usd_relations at h
  split at h
  next hg => exact Or.inl ⟨hg, (Option.some.inj h).symm⟩
  next p hg =>
    split at h
    next ha => exact absurd h (by simp)
    next rs2 ha => exact Or.inr ⟨p, rs2, hg, ha, (Option.some.inj h).symm⟩

theorem gold_ounce_fix_cases (P : ℚ) (rs : Rates) :
    gold_ounce_fix P rs = rs ∨
      ∃ go g, alook rs "gold_ounce" = some go ∧
        (alook go "price").bind numVal = some g ∧ P ≠ 0 ∧
        (alook go "usdPrice").isSome = true ∧
        gold_ounce_fix P rs =
          updRecord rs "gold_ounce"
            (fun r => dinsert r "usdPrice" (JVal.vflt (g / P))) := by
  cases hgo : alook rs "gold_ounce" with
  | none =>
    left
    unfold gold_ounce_fix
    rw [hgo]
  | some go =>
    by_cases he : go.isEmpty
    · left
      unfold gold_ounce_fix
      rw [hgo]
      simp [he]
    · rw [Bool.not_eq_true] at he
      cases hg : (alook go "price").bind numVal with
      | none =>
        left
        unfold gold_ounce_fix
        rw [hgo]
        simp [he, hg]
      | some g =>
        by_cases hp : P = 0
        · left
          unfold gold_ounce_fix
          rw [hgo]
          simp [he, hg, hp]
        · by_cases hup : (alook go "usdPrice").isSome
          · right
            refine ⟨go, g, rfl, hg, hp, hup, ?_⟩
            unfold gold_ounce_fix
            rw [hgo]
            simp [he, hg, hp, hup]
          · left
            unfold gold_ounce_fix
            rw [hgo]
            simp [he, hg, hp, hup]

theorem gold_ounce_fix_alook_ne {P : ℚ} {rs : Rates} {k : String}
    (hk : k ≠ "gold_ounce") : alook (gold_ounce_fix P rs) k = alook rs k := by
  rcases gold_ounce_fix_cases P rs with h | ⟨go, g, _, _, _, _, h⟩ <;> rw [h]
  rw [alook_updRecord, if_neg hk]

theorem keysOf_gold_ounce_fix (P : ℚ) (rs : Rates) :
    keysOf (gold_ounce_fix P rs) = keysOf rs := by
  rcases gold_ounce_fix_cases P rs with h | ⟨go, g, _, _, _, _, h⟩ <;> rw [h]
  exact keysOf_updRecord _ _ _

/-! ## Key-space preservation -/

theorem keysOf_bonbast_step (tIdx fIdx : List (String × String)) (rs : Rates)
    (item : String × Int) :
    keysOf (bonbast_step tIdx fIdx rs item) = keysOf rs := by
  unfold bonbast_step
  cases bonbast_resolve tIdx fIdx item.1 with
  | none => rfl
  | some key =>
    by_cases hk : key = ""
    · simp [hk]
    · simp only [hk, if_false]
      cases alook rs key with
      | none => rfl
      | some r => exact keysOf_updRecord _ _ _

theorem keysOf_foldl_bonbast (tIdx fIdx : List (String × String)) :
    ∀ (l : List (String × Int)) (rs : Rates),
      keysOf (l.foldl (bonbast_step tIdx fIdx) rs) = keysOf rs := by
  intro l
  induction l with
  | nil => intro rs; rfl
  | cons x t ih =>
    intro rs
    rw [List.foldl_cons, ih, keysOf_bonbast_step]

theorem keysOf_update_from_bonbast (rates : Rates) (bonbast : List (String × Int)) :
    keysOf (update_from_bonbast rates bonbast) = keysOf rates := by
  unfold update_from_bonbast
  exact keysOf_foldl_bonbast _ _ _ _

theorem keysOf_csv_step (idx : List (String × String)) (ul : ℚ) (rs : Rates)
    (item : String × ℚ × ℚ) :
    keysOf (csv_step idx ul rs item) = keysOf rs := by
  unfold csv_step
  cases alook idx (norm_key item.1) with
  | none => rfl
  | some key =>
    by_cases hk : key = ""
    · simp [hk]
    · simp only [hk, if_false]
      cases alook rs key with
      | none => rfl
      | some r =>
        by_cases he : r.isEmpty
        · simp [he]
        · rw [Bool.not_eq_true] at he
          simp only [he, Bool.false_eq_true, if_false]
          exact keysOf_updRecord _ _ _

theorem keysOf_foldl_csv (idx : List (String × String)) (ul : ℚ) :
    ∀ (l : List (String × ℚ × ℚ)) (rs : Rates),
      keysOf (l.foldl (csv_step idx ul) rs) = keysOf rs := by
  intro l
  induction l with
  | nil => intro rs; rfl
  | cons x t ih =>
    intro rs
    rw [List.foldl_cons, ih, keysOf_csv_step]

theorem keysOf_csv_apply (rates : Rates) (crypto : List (String × ℚ × ℚ)) (ul : ℚ) :
    keysOf (csv_apply rates crypto ul) = keysOf rates := by
  unfold csv_apply
  exact keysOf_foldl_csv _ _ _ _

theorem update_from_crypto_csv_some {rates out : Rates} {crypto : List (String × ℚ × ℚ)}
    (h : update_from_crypto_csv rates crypto = some out) :
    ∃ ul, out = csv_apply rates crypto ul := by
  unfold update_from_crypto_csv at h
  split at h
  next => exact absurd h (by simp)
  next lo _ => exact ⟨_, ((Option.some.inj h).symm)⟩

theorem keysOf_recompute {rates out : Rates}
    (h : recompute_usd_relations rates = some out) : keysOf out = keysOf rates := by
  rcases recompute_some_cases h with ⟨_, rfl⟩ | ⟨p, rs2, _, ha, rfl⟩
  · rfl
  · rw [keysOf_gold_ounce_fix, recompute_all_keys ha]

/-- C2: the key space is closed.  For every template record set and every
scrape/CSV input, `update_from_bonbast` preserves the keys of the rates dict
exactly, and so do `update_from_crypto_csv` and `recompute_usd_relations`
whenever they complete: unresolvable names are skipped, no record is created
or removed. -/
theorem key_space_closed (rates : Rates) (bonbast : List (String × Int))
    (crypto : List (String × ℚ × ℚ)) :
    keysOf (update_from_bonbast rates bonbast) = keysOf rates ∧
      (∀ out, update_from_crypto_csv rates crypto = some out →
        keysOf out = keysOf rates) ∧
      (∀ out, recompute_usd_relations rates = some out →
        keysOf out = keysOf rates) := by
  refine ⟨keysOf_update_from_bonbast rates bonbast, ?_, ?_⟩
  · intro out h
    obtain ⟨ul, rfl⟩ := update_from_crypto_csv_some h
    exact keysOf_csv_apply rates crypto ul
  · intro out h
    exact keysOf_recompute h

/-- The concrete template used by the C2 witness. -/
def ratesC2 : Rates :=
  [("usd", [("kind", JVal.vstr "currency"), ("price", JVal.vint 2),
            ("title", JVal.vstr "US Dollar")])]

/-- Witness for C2 at a concrete template and concrete scrape/CSV inputs
(one resolvable name and one unresolvable name each). -/
theorem key_space_closed_witness :
    keysOf (update_from_bonbast ratesC2
        [("US Dollar", 61000), ("Klingon Darsek", 7)]) = ["usd"] ∧
      keysOf ((update_from_crypto_csv ratesC2
        [("Bitcoin", (3, 1/100))]).getD []) = ["usd"] ∧
      keysOf ((recompute_usd_relations ratesC2).getD []) = ["usd"] := by
  refine ⟨?_, ?_, ?_⟩
  · exact (key_space_closed ratesC2 [("US Dollar", 61000), ("Klingon Darsek", 7)] []).1
  · exact (key_space_closed ratesC2 [] [("Bitcoin", (3, 1/100))]).2.1
      ((update_from_crypto_csv ratesC2 [("Bitcoin", (3, 1/100))]).getD []) rfl
  · exact (key_space_closed ratesC2 [] []).2.2
      ((recompute_usd_relations ratesC2).getD []) rfl

/-! ## C5: recompute is skipped wholesale without a USD anchor -/

/-- C5: if the rates dict has no "usd" record, or the usd record's price is
absent, non-numeric, or zero, `recompute_usd_relations` returns the rates
dict entirely unchanged and does not fail. -/
theorem recompute_skips_without_usd_anchor (rates : Rates)
    (h : alook rates "usd" = none ∨
      ∃ u, alook rates "usd" = some u ∧
        (alook u "price" = none ∨
          ∃ v, alook u "price" = some v ∧ (numVal v = none ∨ numVal v = some 0))) :
    recompute_usd_relations rates = some rates :=
  recompute_of_guard_none ((usd_guard_none_iff rates).mpr h)

/-- Witness for C5: a record set with no usd record at all. -/
theorem recompute_skips_without_usd_anchor_witness :
    recompute_usd_relations [("eur", [("price", JVal.vint 5)])] =
      some [("eur", [("price", JVal.vint 5)])] :=
  recompute_skips_without_usd_anchor _ (Or.inl rfl)

/-! ## C3: the USD anchor invariant -/

/-- C3: after `recompute_usd_relations`, whenever the result contains a
record with key "usd" of kind currency whose price is a nonzero number, that
record's usdPrice is exactly the integer 1. -/
theorem usd_usdPrice_one_after_recompute
    (rates out : Rates) (u : Fields) (pv : JVal) (P : ℚ)
    (hout : recompute_usd_relations rates = some out)
    (hu : alook out "usd" = some u)
    (hkind : kindStr u = "currency")
    (hp : alook u "price" = some pv)
    (hnum : numVal pv = some P) (h0 : P ≠ 0) :
    alook u "usdPrice" = some (JVal.vint 1) := by
  rcases recompute_some_cases hout with ⟨hg, rfl⟩ | ⟨p, rs2, hg, ha, rfl⟩
  · exact absurd (usd_guard_eq_some hu hp hnum h0) (by simp [hg])
  · rw [gold_ounce_fix_alook_ne (by decide)] at hu
    rw [recompute_all_alook ha "usd"] at hu
    obtain ⟨uM, huM, hone⟩ := Option.bind_eq_some.mp hu
    have hkM : kindStr uM = "currency" := by
      rw [← recompute_one_kindStr hone]; exact hkind
    rw [recompute_one_usd_currency hkM] at hone
    have := Option.some.inj hone
    subst this
    exact alook_dinsert_self _ _ _

/-- Witness for C3 at a concrete record set. -/
theorem usd_usdPrice_one_after_recompute_witness :
    alook ((alook ((recompute_usd_relations
        [("usd", [("kind", JVal.vstr "currency"), ("price", JVal.vint 3)])]).getD [])
      "usd").getD []) "usdPrice" = some (JVal.vint 1) :=
  usd_usdPrice_one_after_recompute
    [("usd", [("kind", JVal.vstr "currency"), ("price", JVal.vint 3)])]
    ((recompute_usd_relations
        [("usd", [("kind", JVal.vstr "currency"), ("price", JVal.vint 3)])]).getD [])
    ((alook ((recompute_usd_relations
        [("usd", [("kind", JVal.vstr "currency"), ("price", JVal.vint 3)])]).getD [])
      "usd").getD [])
    (JVal.vint 3) 3 rfl rfl rfl rfl (by decide) (by norm_num)

/-! ## C4: the gold_ounce special case -/

theorem gold_ounce_fix_fires {P : ℚ} {rs : Rates} {go : Fields} {g : ℚ}
    (hgo : alook rs "gold_ounce" = some go)
    (hg : (alook go "price").bind numVal = some g)
    (hP : P ≠ 0) (hup : (alook go "usdPrice").isSome = true) :
    gold_ounce_fix P rs =
      updRecord rs "gold_ounce"
        (fun r => dinsert r "usdPrice" (JVal.vflt (g / P))) := by
  have hne : go ≠ [] := by
    intro h
    subst h
    simp [alook] at hg
  have he : go.isEmpty = false := by
    cases go
    · exact absurd rfl hne
    · simp
  unfold gold_ounce_fix
  rw [hgo]
  simp [he, hg, hP, hup]

theorem kindStr_dinsert_other {r : Fields} {f : String} {v : JVal}
    (hf : f ≠ "kind") : kindStr (dinsert r f v) = kindStr r := by
  unfold kindStr
  rw [alook_dinsert_ne _ _ _ _ (Ne.symm hf)]

/-- The concrete record set of the C4 counterexample: a usd anchor at price 2
and a gold_ounce record of kind gold with price 10 carrying usdPrice 3. -/
def ratesC4 : Rates :=
  [("usd", [("kind", JVal.vstr "currency"), ("price", JVal.vint 2)]),
   ("gold_ounce", [("kind", JVal.vstr "gold"), ("price", JVal.vint 10),
                   ("usdPrice", JVal.vint 3)])]

/-- Counterexample to C4 as stated: on `ratesC4` the claim's forward
(crypto-like) derivation would set the gold_ounce local price to
usdPrice * usdLocal = 3 * 2 = 6, but `recompute_usd_relations` leaves the
scraped local price 10 in place (only `usdPrice` is backward-derived). -/
theorem gold_ounce_forward_counterexample :
    (alook ((recompute_usd_relations ratesC4).getD []) "gold_ounce").map
        (fun r => alook r "price") = some (some (JVal.vint 10)) ∧
      ¬ ((alook ((recompute_usd_relations ratesC4).getD []) "gold_ounce").map
          (fun r => (alook r "price").bind numVal) = some (some ((3 : ℚ) * 2))) := by
  constructor
  · rfl
  · intro h
    have h10 : (10 : ℚ) = 3 * 2 := by
      have := Option.some.inj (Option.some.inj h)
      simpa [ratesC4, recompute_usd_relations, numVal] using this
    norm_num at h10

/-- C4 (amended): when the usd record's price is a nonzero number and the
rates dict contains a gold_ounce record of kind gold with a numeric price
that carries a usdPrice field, `recompute_usd_relations` leaves the
gold_ounce local price unchanged (its forward feed is the scraped local
price, not the crypto-style usdPrice derivation) and backward-derives its
usdPrice as price divided by the usd record's price. -/
theorem gold_ounce_backward_only
    (rates out : Rates) (u go : Fields) (pv gv : JVal) (P G : ℚ)
    (hout : recompute_usd_relations rates = some out)
    (hu : alook rates "usd" = some u)
    (hp : alook u "price" = some pv) (hP : numVal pv = some P) (h0 : P ≠ 0)
    (hgo : alook rates "gold_ounce" = some go)
    (hkind : kindStr go = "gold")
    (hgp : alook go "price" = some gv) (hG : numVal gv = some G)
    (hup : (alook go "usdPrice").isSome = true) :
    (alook out "gold_ounce").map
        (fun r => (alook r "price", alook r "usdPrice")) =
      some (some gv, some (JVal.vflt (G / P))) := by
  have hguard : usd_guard rates = some P := usd_guard_eq_some hu hp hP h0
  rcases recompute_some_cases hout with ⟨hg, rfl⟩ | ⟨p, rs2, hg, ha, rfl⟩
  · rw [hguard] at hg
    cases hg
  · rw [hguard] at hg
    have hpP : p = P := (Option.some.inj hg).symm
    subst hpP
    have hone : recompute_one "gold_ounce" go p = some go :=
      recompute_one_other_kind (by rw [hkind]; decide) (by rw [hkind]; decide)
    have hgo2 : alook rs2 "gold_ounce" = some go := by
      rw [recompute_all_alook ha "gold_ounce", hgo]
      simpa using hone
    have hbind : (alook go "price").bind numVal = some G := by
      rw [hgp]
      simpa using hG
    rw [gold_ounce_fix_fires hgo2 hbind h0 hup]
    rw [alook_updRecord]
    simp only [if_pos rfl, hgo2, Option.map_map, Option.map_some]
    have h1 : alook (dinsert go "usdPrice" (JVal.vflt (G / p))) "price" = some gv := by
      rw [alook_dinsert_ne _ _ _ _ (by decide), hgp]
    have h2 : alook (dinsert go "usdPrice" (JVal.vflt (G / p))) "usdPrice" =
        some (JVal.vflt (G / p)) := alook_dinsert_self _ _ _
    simp [h1, h2]

/-- Witness for the amended C4, at the counterexample record set. -/
theorem gold_ounce_backward_only_witness :
    (alook ((recompute_usd_relations ratesC4).getD []) "gold_ounce").map
        (fun r => (alook r "price", alook r "usdPrice")) =
      some (some (JVal.vint 10), some (JVal.vflt ((10 : ℚ) / 2))) :=
  gold_ounce_backward_only ratesC4 ((recompute_usd_relations ratesC4).getD [])
    [("kind", JVal.vstr "currency"), ("price", JVal.vint 2)]
    [("kind", JVal.vstr "gold"), ("price", JVal.vint 10), ("usdPrice", JVal.vint 3)]
    (JVal.vint 2) (JVal.vint 10) 2 10
    rfl rfl rfl (by decide) (by norm_num) rfl rfl rfl (by decide) rfl

/-! ## C1: crypto local price = usdPrice * usd local price -/

theorem recompute_crypto_relation
    (mid out : Rates) (usdR r : Fields) (pv uv : JVal) (P U : ℚ) (k : String)
    (hout : recompute_usd_relations mid = some out)
    (husd : alook out "usd" = some usdR)
    (hkindUsd : kindStr usdR ≠ "crypto")
    (hpv : alook usdR "price" = some pv)
    (hP : numVal pv = some P) (h0 : P ≠ 0)
    (hr : alook out k = some r)
    (hkind : kindStr r = "crypto")
    (huv : alook r "usdPrice" = some uv)
    (hU : numVal uv = some U) :
    (alook r "price").bind numVal = some (U * P) := by
  rcases recompute_some_cases hout with ⟨hg, rfl⟩ | ⟨p, rs2, hg, ha, rfl⟩
  · exact absurd (usd_guard_eq_some husd hpv hP h0) (by simp [hg])
  · -- Identify the guard value with the final usd price.
    rw [gold_ounce_fix_alook_ne (by decide)] at husd
    rw [recompute_all_alook ha "usd"] at husd
    obtain ⟨usdM, husdM, honeU⟩ := Option.bind_eq_some.mp husd
    have hkM : kindStr usdM ≠ "crypto" := by
      rw [← recompute_one_kindStr honeU]; exact hkindUsd
    have hpM : alook usdM "price" = some pv := by
      rw [← recompute_one_price_of_ne_crypto honeU hkM]; exact hpv
    have hguard : usd_guard mid = some P := usd_guard_eq_some husdM hpM hP h0
    rw [hguard] at hg
    have hpP : p = P := (Option.some.inj hg).symm
    subst hpP
    -- The generic crypto-branch argument, for a record reached untouched by
    -- the gold_ounce fix.
    have main :
        ∀ r' : Fields, alook rs2 k = some r' → kindStr r' = "crypto" →
          ∀ uv' U', alook r' "usdPrice" = some uv' → numVal uv' = some U' →
            (alook r' "price").bind numVal = some (U' * p) := by
      intro r' hr2 hkind' uv' U' huv2 hU2
      rw [recompute_all_alook ha k] at hr2
      obtain ⟨rM, hrM, honeR⟩ := Option.bind_eq_some.mp hr2
      have hkMc : kindStr rM = "crypto" := by
        rw [← recompute_one_kindStr honeR]; exact hkind'
      rw [recompute_one_crypto_eq hkMc] at honeR
      cases hbu : (alook rM "usdPrice").bind numVal with
      | some u0 =>
        simp only [hbu] at honeR
        have hreq := Option.some.inj honeR
        subst hreq
        rw [alook_dinsert_ne rM "price" "usdPrice" _ (by decide)] at huv2
        rw [huv2, Option.some_bind, hU2] at hbu
        have hUu : U' = u0 := Option.some.inj hbu
        subst hUu
        rw [alook_dinsert_self, Option.some_bind]
        simp [numVal]
      | none =>
        simp only [hbu] at honeR
        have hreq := Option.some.inj honeR
        subst hreq
        rw [huv2, Option.some_bind, hU2] at hbu
        exact absurd hbu (by simp)
    by_cases hk : k = "gold_ounce"
    · subst hk
      rcases gold_ounce_fix_cases p rs2 with hfix | ⟨go, g, hgo2, hgbind, hp0, hup2, hfix⟩
      · rw [hfix] at hr
        exact main r hr hkind uv U huv hU
      · rw [hfix, alook_updRecord, if_pos rfl, hgo2] at hr
        simp only [Option.map_some'] at hr
        have hreq := Option.some.inj hr
        subst hreq
        -- r = dinsert go "usdPrice" (vflt (g / p))
        have hkgo : kindStr go = "crypto" := by
          rw [← kindStr_dinsert_other (show "usdPrice" ≠ "kind" by decide)]
          exact hkind
        have hpr : alook (dinsert go "usdPrice" (JVal.vflt (g / p))) "price" =
            alook go "price" := alook_dinsert_ne _ _ _ _ (by decide)
        have huvv : uv = JVal.vflt (g / p) := by
          have := alook_dinsert_self go "usdPrice" (JVal.vflt (g / p))
          rw [this] at huv
          exact (Option.some.inj huv).symm
        have hUval : U = g / p := by
          rw [huvv] at hU
          simpa [numVal] using hU.symm
      -- Whether the pre-fix record go was itself forward-derived or not,
      -- its numeric price is g, and (g / p) * p = g.
        rw [hpr, hgbind, hUval]
        rw [div_mul_cancel₀ g h0]
    · rw [gold_ounce_fix_alook_ne hk] at hr
      exact main r hr hkind uv U huv hU

/-- C1: after the full update pipeline (bonbast apply, crypto-CSV apply, then
USD-relation recompute), for every record of kind crypto carrying a numeric
usdPrice in the output, and given that the usd record's price in the output
is a nonzero number, the record's local price equals its latest usdPrice
multiplied by the latest usd record price.  (Per the data model the usd
record is the currency anchor; the hypothesis used is only that its kind is
not crypto.) -/
theorem crypto_price_eq_usdPrice_times_usd
    (rates out : Rates) (bonbast : List (String × Int))
    (crypto : List (String × ℚ × ℚ))
    (usdR r : Fields) (pv uv : JVal) (P U : ℚ) (k : String)
    (hout : run_pipeline rates bonbast crypto = some out)
    (husd : alook out "usd" = some usdR)
    (hkindUsd : kindStr usdR ≠ "crypto")
    (hpv : alook usdR "price" = some pv)
    (hP : numVal pv = some P) (h0 : P ≠ 0)
    (hr : alook out k = some r)
    (hkind : kindStr r = "crypto")
    (huv : alook r "usdPrice" = some uv)
    (hU : numVal uv = some U) :
    (alook r "price").bind numVal = some (U * P) := by
  unfold run_pipeline at hout
  split at hout
  next => exact absurd hout (by simp)
  next mid2 hmid =>
    exact recompute_crypto_relation mid2 out usdR r pv uv P U k hout husd
      hkindUsd hpv hP h0 hr hkind huv hU

/-- The concrete template of the C1 witness. -/
def ratesC1 : Rates :=
  [("usd", [("kind", JVal.vstr "currency"), ("price", JVal.vint 2),
            ("usdPrice", JVal.vint 7), ("title", JVal.vstr "US Dollar")]),
   ("btc", [("kind", JVal.vstr "crypto"), ("price", JVal.vint 0),
            ("usdPrice", JVal.vint 0), ("title", JVal.vstr "Bitcoin")]),
   ("gold_ounce", [("kind", JVal.vstr "gold"), ("price", JVal.vint 10),
                   ("usdPrice", JVal.vint 5), ("title", JVal.vstr "Gold Ounce")])]

/-- Witness for C1 at a concrete template, scrape, and CSV: the pipeline sets
btc's usdPrice to 3 from the CSV and its local price to 3 * 2 = 6. -/
theorem crypto_price_eq_usdPrice_times_usd_witness :
    (alook ((alook ((run_pipeline ratesC1 [("Gold Ounce", 12)]
          [("Bitcoin", (3, 1/100))]).getD []) "btc").getD []) "price").bind numVal =
      some ((3 : ℚ) * 2) :=
  crypto_price_eq_usdPrice_times_usd ratesC1
    ((run_pipeline ratesC1 [("Gold Ounce", 12)] [("Bitcoin", (3, 1/100))]).getD [])
    [("Gold Ounce", 12)] [("Bitcoin", (3, 1/100))]
    ((alook ((run_pipeline ratesC1 [("Gold Ounce", 12)]
        [("Bitcoin", (3, 1/100))]).getD []) "usd").getD [])
    ((alook ((run_pipeline ratesC1 [("Gold Ounce", 12)]
        [("Bitcoin", (3, 1/100))]).getD []) "btc").getD [])
    (JVal.vint 2) (JVal.vflt 3) 2 3 "btc"
    rfl rfl (by decide) rfl (by decide) (by norm_num) rfl rfl rfl (by decide)

/-! ## C7: alias precedence for the half-coin glyph -/

/-- Counterexample to C7 as stated: the name "Azadi½" contains both "Azadi"
and the half glyph "½", yet the canonicalization chain leaves it unchanged
(the "Half" marker branch looks for the word "Half", not the glyph), and the
coin alias table then does not resolve it at all — in particular not to
coin_half_azadi. -/
theorem azadi_half_glyph_counterexample :
    strContains "Azadi½" "Azadi" = true ∧ strContains "Azadi½" "½" = true ∧
      alook COIN_NAME_TO_KEY (canonicalize_coin_name "Azadi½") ≠
        some "coin_half_azadi" := by
  refine ⟨by decide, by decide, by decide⟩

/-- C7 (amended): a scraped name containing both "Azadi" and the half glyph
"½" is never resolved to the base Azadi alias key coin_azadi by the coin
canonicalization chain and alias table (the glyph disables the base-Azadi
branch, and no other outcome maps to coin_azadi); it is resolved to
coin_half_azadi exactly when the chain or the table actually match it
(e.g. the exact alias "½ Azadi", or a name containing the word "Half"),
and other such names simply fall through the coin table unresolved. -/
theorem azadi_half_glyph_never_coin_azadi (name : String)
    (h1 : strContains name "Azadi" = true) (h2 : strContains name "½" = true) :
    alook COIN_NAME_TO_KEY (canonicalize_coin_name name) ≠ some "coin_azadi" := by
  unfold canonicalize_coin_name
  split_ifs with b1 b2 b3 b4 b5
  · decide
  · rw [h2] at b2
    simp at b2
  · decide
  · decide
  · decide
  · intro hcontra
    simp only [COIN_NAME_TO_KEY, alook] at hcontra
    split_ifs at hcontra with e1 e2 e3 e4 e5
    · exact absurd hcontra (by decide)
    · rw [← e2] at h2
      exact absurd h2 (by decide)
    · exact absurd hcontra (by decide)
    · exact absurd hcontra (by decide)
    · exact absurd hcontra (by decide)

/-- Witness for the amended C7, at the exact alias name "½ Azadi" (which the
table resolves to coin_half_azadi — and hence not to coin_azadi). -/
theorem azadi_half_glyph_never_coin_azadi_witness :
    alook COIN_NAME_TO_KEY (canonicalize_coin_name "½ Azadi") ≠
      some "coin_azadi" :=
  azadi_half_glyph_never_coin_azadi "½ Azadi" (by decide) (by decide)

/-! ## C10: the usd_local = 1.0 fallback of update_from_crypto_csv -/

/-- One step of `last_resolve`, scanning from the right: keep an already
found (later) winner, otherwise test whether this row resolves to `k`. -/
def last_resolve_step (idx : List (String × String)) (k : String)
    (item : String × ℚ × ℚ) (acc : Option (ℚ × ℚ)) : Option (ℚ × ℚ) :=
  match acc with
  | some p => some p
  | none => if alook idx (norm_key item.1) = some k then some item.2 else none

/-- The CSV row that wins for key `k`: the values of the last row of the list
whose name resolves to `k` through the crypto title index (later rows
overwrite earlier ones in the loop). -/
def last_resolve (idx : List (String × String)) (k : String)
    (crypto : List (String × ℚ × ℚ)) : Option (ℚ × ℚ) :=
  crypto.foldr (last_resolve_step idx k) none

theorem last_resolve_cons (idx : List (String × String)) (k : String)
    (item : String × ℚ × ℚ) (rest : List (String × ℚ × ℚ)) :
    last_resolve idx k (item :: rest) =
      last_resolve_step idx k item (last_resolve idx k rest) := rfl

theorem csv_step_alook_of_not_resolved (idx : List (String × String)) (ul : ℚ)
    (rs : Rates) (item : String × ℚ × ℚ) (k : String)
    (h : alook idx (norm_key item.1) ≠ some k) :
    alook (csv_step idx ul rs item) k = alook rs k := by
  unfold csv_step
  cases hres : alook idx (norm_key item.1) with
  | none => rfl
  | some key =>
    have hkey : key ≠ k := by
      intro hcontra
      subst hcontra
      exact h hres
    by_cases hk0 : key = ""
    · simp [hk0]
    · simp only [hk0, if_false]
      cases alook rs key with
      | none => rfl
      | some r =>
        by_cases he : r.isEmpty
        · simp [he]
        · rw [Bool.not_eq_true] at he
          simp only [he, Bool.false_eq_true, if_false]
          rw [alook_updRecord, if_neg (Ne.symm hkey)]

theorem csv_step_alook_resolved (idx : List (String × String)) (ul : ℚ)
    (rs : Rates) (item : String × ℚ × ℚ) (k : String) (r : Fields)
    (hres : alook idx (norm_key item.1) = some k) (hk : k ≠ "")
    (hr : alook rs k = some r) (hne : r ≠ []) :
    alook (csv_step idx ul rs item) k =
      some (dinsert
        (dinsert (dinsert r "usdPrice" (JVal.vflt item.2.1))
          "change24h" (JVal.vflt item.2.2))
        "price" (JVal.vflt (item.2.1 * ul))) := by
  have he : r.isEmpty = false := by
    cases r
    · exact absurd rfl hne
    · simp
  unfold csv_step
  rw [hres]
  simp only [hk, if_false]
  rw [hr]
  simp only [he, Bool.false_eq_true, if_false]
  rw [alook_updRecord, if_pos rfl, hr]
  rfl

theorem csv_fold_char (idx : List (String × String)) (ul : ℚ) (k : String)
    (hk : k ≠ "") :
    ∀ (crypto : List (String × ℚ × ℚ)) (rs : Rates) (r : Fields),
      alook rs k = some r → r ≠ [] →
      (last_resolve idx k crypto = none →
        alook (crypto.foldl (csv_step idx ul) rs) k = some r) ∧
      (∀ up ch, last_resolve idx k crypto = some (up, ch) →
        ∃ r', alook (crypto.foldl (csv_step idx ul) rs) k = some r' ∧
          alook r' "price" = some (JVal.vflt (up * ul)) ∧
          alook r' "usdPrice" = some (JVal.vflt up) ∧
          alook r' "change24h" = some (JVal.vflt ch)) := by
  intro crypto
  induction crypto with
  | nil =>
    intro rs r hr hne
    refine ⟨fun _ => hr, fun up ch hcontra => ?_⟩
    simp [last_resolve] at hcontra
  | cons item rest ih =>
    intro rs r hr hne
    rw [List.foldl_cons]
    by_cases hres : alook idx (norm_key item.1) = some k
    · -- the head row resolves to k and updates the record
      have hstep := csv_step_alook_resolved idx ul rs item k r hres hk hr hne
      have hne1 : (dinsert
          (dinsert (dinsert r "usdPrice" (JVal.vflt item.2.1))
            "change24h" (JVal.vflt item.2.2))
          "price" (JVal.vflt (item.2.1 * ul))) ≠ [] := dinsert_ne_nil _ _ _
      have ihs := ih (csv_step idx ul rs item) _ hstep hne1
      constructor
      · intro hlast
        exfalso
        rw [last_resolve_cons] at hlast
        cases hrest : last_resolve idx k rest with
        | some p => rw [hrest] at hlast; simp [last_resolve_step] at hlast
        | none =>
          rw [hrest] at hlast
          simp [last_resolve_step, hres] at hlast
      · intro up ch hlast
        rw [last_resolve_cons] at hlast
        cases hrest : last_resolve idx k rest with
        | some p =>
          rw [hrest] at hlast
          simp only [last_resolve_step, Option.some.injEq] at hlast
          subst hlast
          exact ihs.2 up ch hrest
        | none =>
          rw [hrest] at hlast
          simp only [last_resolve_step, hres, if_pos, Option.some.injEq] at hlast
          refine ⟨_, ihs.1 hrest, ?_, ?_, ?_⟩
          · rw [alook_dinsert_self]
            simp [hlast]
          · rw [alook_dinsert_ne _ _ _ _ (by decide),
              alook_dinsert_ne _ _ _ _ (by decide), alook_dinsert_self]
            simp [hlast]
          · rw [alook_dinsert_ne _ _ _ _ (by decide), alook_dinsert_self]
            simp [hlast]
    · -- the head row does not touch k
      have hstep := csv_step_alook_of_not_resolved idx ul rs item k hres
      rw [hr] at hstep
      have ihs := ih (csv_step idx ul rs item) r hstep hne
      constructor
      · intro hlast
        rw [last_resolve_cons] at hlast
        cases hrest : last_resolve idx k rest with
        | some p => rw [hrest] at hlast; simp [last_resolve_step] at hlast
        | none => exact ihs.1 hrest
      · intro up ch hlast
        rw [last_resolve_cons] at hlast
        cases hrest : last_resolve idx k rest with
        | some p =>
          rw [hrest] at hlast
          simp only [last_resolve_step, Option.some.injEq] at hlast
          subst hlast
          exact ihs.2 up ch hrest
        | none =>
          rw [hrest] at hlast
          simp [last_resolve_step, hres] at hlast

/-- The concrete record set of the C10 counterexample: the usd price is the
truthy string "2" — not a number — and there is one crypto record. -/
def ratesC10 : Rates :=
  [("usd", [("kind", JVal.vstr "currency"), ("price", JVal.vstr "2")]),
   ("btc", [("kind", JVal.vstr "crypto"), ("title", JVal.vstr "Bitcoin"),
            ("price", JVal.vint 5)])]

/-- Counterexample to C10 as stated: the usd price is the string "2" —
present but non-numeric (`isinstance(_, (int, float))` is false, so the claim
asserts the 1.0 substitution) — yet `update_from_crypto_csv` does not fall
back to 1.0: the string is truthy, `float("2")` succeeds, and btc's local
price becomes 3 * 2 = 6 rather than 3 * 1. -/
theorem crypto_csv_usd_fallback_counterexample :
    numVal (JVal.vstr "2") = none ∧
      update_from_crypto_csv ratesC10 [("Bitcoin", (3, 1/50))] =
        some (csv_apply ratesC10 [("Bitcoin", (3, 1/50))] 2) ∧
      alook ((alook (csv_apply ratesC10 [("Bitcoin", (3, 1/50))] 2)
          "btc").getD []) "price" = some (JVal.vflt (3 * 2)) ∧
      ¬ ((3 : ℚ) * 2 = 3 * 1) := by
  exact ⟨rfl, rfl, rfl, by norm_num⟩

/-- C10 (amended): when the rates dict has no "usd" record, or the usd
record's price field is absent, or its value is falsy (the number 0, the
empty string, null, an empty container), `update_from_crypto_csv` substitutes
1.0 for the local USD price: it completes without error and behaves exactly
like the CSV loop run with usd_local = 1, so every crypto record resolved
from the CSV gets its local price overwritten with its new usdPrice times 1
(rather than keeping its previous local price), while usdPrice and change24h
are still set from the CSV values.  (A truthy non-numeric usd price is *not*
covered: the code then parses it with float(), as the counterexample shows.) -/
theorem crypto_csv_usd_fallback
    (rates : Rates) (crypto : List (String × ℚ × ℚ))
    (h : alook rates "usd" = none ∨
      ∃ u, alook rates "usd" = some u ∧
        (alook u "price" = none ∨
          ∃ v, alook u "price" = some v ∧ truthy v = false)) :
    update_from_crypto_csv rates crypto = some (csv_apply rates crypto 1) ∧
      ∀ k r up ch, k ≠ "" → alook rates k = some r → r ≠ [] →
        last_resolve (build_title_index rates "crypto") k crypto = some (up, ch) →
        ∃ r', alook (csv_apply rates crypto 1) k = some r' ∧
          alook r' "price" = some (JVal.vflt (up * 1)) ∧
          alook r' "usdPrice" = some (JVal.vflt up) ∧
          alook r' "change24h" = some (JVal.vflt ch) := by
  have hlo : usd_local_of rates = some none := by
    unfold usd_local_of
    rcases h with h | ⟨u, hu, h⟩
    · rw [h]
    · rcases h with hp | ⟨v, hp, hv⟩
      · simp only [hu, hp]
      · simp only [hu, hp, hv]
        simp
  constructor
  · unfold update_from_crypto_csv
    rw [hlo]
  · intro k r up ch hk hr hne hlast
    exact ((csv_fold_char (build_title_index rates "crypto") 1 k hk crypto
      rates r hr hne).2) up ch hlast

/-- The concrete record set of the C10 witness: no usd record at all. -/
def ratesC10w : Rates :=
  [("btc", [("kind", JVal.vstr "crypto"), ("title", JVal.vstr "Bitcoin"),
            ("price", JVal.vint 5)])]

/-- Witness for the amended C10: with no usd record, the CSV update completes
with usd_local = 1 and btc's local price becomes its new usdPrice 3 times 1. -/
theorem crypto_csv_usd_fallback_witness :
    update_from_crypto_csv ratesC10w [("Bitcoin", (3, 1/50))] =
      some (csv_apply ratesC10w [("Bitcoin", (3, 1/50))] 1) ∧
      alook ((alook (csv_apply ratesC10w [("Bitcoin", (3, 1/50))] 1)
          "btc").getD []) "price" = some (JVal.vflt (3 * 1)) := by
  have h := crypto_csv_usd_fallback ratesC10w [("Bitcoin", (3, 1/50))] (Or.inl rfl)
  refine ⟨h.1, ?_⟩
  obtain ⟨r', hr', hp, -, -⟩ := h.2 "btc"
    [("kind", JVal.vstr "crypto"), ("title", JVal.vstr "Bitcoin"),
     ("price", JVal.vint 5)]
    3 (1/50) (by decide) rfl (by simp) rfl
  rw [hr']
  exact hp

/-! ## C9: frame conditions of the pipeline and the top-level merge -/

/-- Record-level frame relation: `r'` agrees with `r` on every field other
than price, usdPrice and change24h. -/
def FrameEq (r r' : Fields) : Prop :=
  ∀ f, f ≠ "price" → f ≠ "usdPrice" → f ≠ "change24h" → alook r' f = alook r f

/-- Rates-level frame relation: every record of `rs'` comes from the record
of `rs` with the same key, unchanged outside the three numeric fields. -/
def RatesFrame (rs rs' : Rates) : Prop :=
  ∀ k r', alook rs' k = some r' → ∃ r, alook rs k = some r ∧ FrameEq r r'

theorem FrameEq_refl (r : Fields) : FrameEq r r := fun _ _ _ _ => rfl

theorem FrameEq_trans {a b c : Fields} (h1 : FrameEq a b) (h2 : FrameEq b c) :
    FrameEq a c := fun f p q s => (h2 f p q s).trans (h1 f p q s)

theorem FrameEq_dinsert (r : Fields) (g : String) (v : JVal)
    (hg : g = "price" ∨ g = "usdPrice" ∨ g = "change24h") :
    FrameEq r (dinsert r g v) := by
  intro f h1 h2 h3
  refine alook_dinsert_ne _ _ _ _ ?_
  rcases hg with h | h | h <;> subst h <;> assumption

theorem RatesFrame_refl (rs : Rates) : RatesFrame rs rs :=
  fun _ r' h => ⟨r', h, FrameEq_refl r'⟩

theorem RatesFrame_trans {a b c : Rates} (h1 : RatesFrame a b)
    (h2 : RatesFrame b c) : RatesFrame a c := by
  intro k r'' h
  obtain ⟨r', hb, f2⟩ := h2 k r'' h
  obtain ⟨r, ha, f1⟩ := h1 k r' hb
  exact ⟨r, ha, FrameEq_trans f1 f2⟩

theorem RatesFrame_updRecord (rs : Rates) (key : String) (f : Fields → Fields)
    (hf : ∀ r, FrameEq r (f r)) : RatesFrame rs (updRecord rs key f) := by
  intro k r' h
  rw [alook_updRecord] at h
  by_cases hk : k = key
  · rw [if_pos hk] at h
    cases hrs : alook rs k with
    | none => rw [hrs] at h; simp at h
    | some r =>
      rw [hrs] at h
      simp only [Option.map_some'] at h
      exact ⟨r, rfl, (Option.some.inj h) ▸ hf r⟩
  · rw [if_neg hk] at h
    exact ⟨r', h, FrameEq_refl r'⟩

theorem RatesFrame_foldl {β : Type} (step : Rates → β → Rates)
    (hstep : ∀ rs b, RatesFrame rs (step rs b)) :
    ∀ (l : List β) (rs : Rates), RatesFrame rs (l.foldl step rs) := by
  intro l
  induction l with
  | nil => intro rs; exact RatesFrame_refl rs
  | cons x t ih =>
    intro rs
    rw [List.foldl_cons]
    exact RatesFrame_trans (hstep rs x) (ih (step rs x))

theorem RatesFrame_bonbast_step (tIdx fIdx : List (String × String))
    (rs : Rates) (item : String × Int) :
    RatesFrame rs (bonbast_step tIdx fIdx rs item) := by
  cases hres : bonbast_resolve tIdx fIdx item.1 with
  | none =>
    unfold bonbast_step
    simp only [hres]
    exact RatesFrame_refl rs
  | some key =>
    unfold bonbast_step
    simp only [hres]
    by_cases hk : key = ""
    · rw [if_pos hk]
      exact RatesFrame_refl rs
    · rw [if_neg hk]
      cases halo : alook rs key with
      | none => exact RatesFrame_refl rs
      | some r =>
        exact RatesFrame_updRecord rs key _
          (fun r0 => FrameEq_dinsert r0 "price" _ (Or.inl rfl))

theorem RatesFrame_update_from_bonbast (rates : Rates)
    (b : List (String × Int)) :
    RatesFrame rates (update_from_bonbast rates b) := by
  unfold update_from_bonbast
  exact RatesFrame_foldl _ (RatesFrame_bonbast_step _ _) b rates

theorem RatesFrame_csv_step (idx : List (String × String)) (ul : ℚ)
    (rs : Rates) (item : String × ℚ × ℚ) :
    RatesFrame rs (csv_step idx ul rs item) := by
  cases hres : alook idx (norm_key item.1) with
  | none =>
    unfold csv_step
    simp only [hres]
    exact RatesFrame_refl rs
  | some key =>
    unfold csv_step
    simp only [hres]
    by_cases hk : key = ""
    · rw [if_pos hk]
      exact RatesFrame_refl rs
    · rw [if_neg hk]
      cases halo : alook rs key with
      | none => exact RatesFrame_refl rs
      | some r =>
        by_cases he : r.isEmpty
        · simp only [halo, he, if_true]
          exact RatesFrame_refl rs
        · rw [Bool.not_eq_true] at he
          simp only [halo, he, Bool.false_eq_true, if_false]
          refine RatesFrame_updRecord rs key _ (fun r0 => ?_)
          exact FrameEq_trans
            (FrameEq_trans (FrameEq_dinsert r0 "usdPrice" _ (Or.inr (Or.inl rfl)))
              (FrameEq_dinsert _ "change24h" _ (Or.inr (Or.inr rfl))))
            (FrameEq_dinsert _ "price" _ (Or.inl rfl))

theorem recompute_one_FrameEq {key : String} {r r' : Fields} {P : ℚ}
    (h : recompute_one key r P = some r') : FrameEq r r' :=
  fun _ h1 h2 _ => recompute_one_alook_other h h1 h2

theorem RatesFrame_recompute_all {P : ℚ} {rs rs2 : Rates}
    (ha : recompute_all P rs = some rs2) : RatesFrame rs rs2 := by
  intro k r' h
  rw [recompute_all_alook ha k] at h
  obtain ⟨r, hr, hone⟩ := Option.bind_eq_some.mp h
  exact ⟨r, hr, recompute_one_FrameEq hone⟩

theorem RatesFrame_gold_ounce_fix (P : ℚ) (rs : Rates) :
    RatesFrame rs (gold_ounce_fix P rs) := by
  rcases gold_ounce_fix_cases P rs with h | ⟨go, g, _, _, _, _, h⟩ <;> rw [h]
  · exact RatesFrame_refl rs
  · exact RatesFrame_updRecord rs _ _
      (fun r0 => FrameEq_dinsert r0 "usdPrice" _ (Or.inr (Or.inl rfl)))

theorem RatesFrame_recompute {rates out : Rates}
    (h : recompute_usd_relations rates = some out) : RatesFrame rates out := by
  rcases recompute_some_cases h with ⟨_, rfl⟩ | ⟨p, rs2, _, ha, rfl⟩
  · exact RatesFrame_refl _
  · exact RatesFrame_trans (RatesFrame_recompute_all ha)
      (RatesFrame_gold_ounce_fix p rs2)

theorem RatesFrame_apply_sources {rates mid : Rates} {b : List (String × Int)}
    {c : List (String × ℚ × ℚ)}
    (h : apply_sources rates b c = some mid) : RatesFrame rates mid := by
  have hr1 : RatesFrame rates
      (if b.isEmpty then rates else update_from_bonbast rates b) := by
    by_cases hb : b.isEmpty
    · rw [if_pos hb]; exact RatesFrame_refl rates
    · rw [if_neg hb]; exact RatesFrame_update_from_bonbast rates b
  simp only [apply_sources] at h
  by_cases hc : c.isEmpty
  · rw [if_pos hc] at h
    exact (Option.some.inj h) ▸ hr1
  · rw [if_neg hc] at h
    obtain ⟨ul, rfl⟩ := update_from_crypto_csv_some h
    refine RatesFrame_trans hr1 ?_
    unfold csv_apply
    exact RatesFrame_foldl _ (fun rs it => RatesFrame_csv_step _ ul rs it) c _

theorem RatesFrame_run_pipeline {rates out : Rates} {b : List (String × Int)}
    {c : List (String × ℚ × ℚ)}
    (h : run_pipeline rates b c = some out) : RatesFrame rates out := by
  unfold run_pipeline at h
  split at h
  next => exact absurd h (by simp)
  next mid hmid =>
    exact RatesFrame_trans (RatesFrame_apply_sources hmid) (RatesFrame_recompute h)

theorem alook_append {α : Type} (l1 l2 : List (String × α)) (k : String) :
    alook (l1 ++ l2) k =
      match alook l1 k with
      | some v => some v
      | none => alook l2 k := by
  induction l1 with
  | nil => rfl
  | cons p t ih =>
    obtain ⟨k0, v0⟩ := p
    by_cases h0 : k0 = k
    · simp [alook, h0]
    · simp [alook, h0, ih]

theorem merge_step_lookup :
    ∀ (t base : List (String × JVal)) (k : String),
      alook (t.foldl merge_step base) k =
        match alook base k with
        | some v => some v
        | none => alook t k := by
  intro t
  induction t with
  | nil =>
    intro base k
    rw [List.foldl_nil]
    cases h : alook base k <;> simp [alook]
  | cons p t ih =>
    intro base k
    rw [List.foldl_cons, ih]
    unfold merge_step
    by_cases hs : (alook base p.1).isSome
    · rw [if_pos hs]
      cases h : alook base k with
      | some v => rfl
      | none =>
        have hpk : p.1 ≠ k := by
          intro hc
          rw [hc, h] at hs
          simp at hs
        obtain ⟨k1, v1⟩ := p
        simp only [alook]
        rw [if_neg hpk]
    · rw [if_neg hs]
      rw [alook_append]
      cases h : alook base k with
      | some v => rfl
      | none =>
        obtain ⟨k1, v1⟩ := p
        simp only [alook]
        by_cases hpk : k1 = k
        · rw [if_pos hpk, if_pos hpk]
        · rw [if_neg hpk, if_neg hpk]

theorem merge_top_preserves :
    ∀ (template : List (String × JVal)) (fetched sourceVal ratesVal : JVal)
      (k : String), k ≠ "fetchedAtMs" → k ≠ "source" → k ≠ "rates" →
      alook (merge_top template fetched sourceVal ratesVal) k =
        alook template k := by
  intro template fetched sourceVal ratesVal k h1 h2 h3
  unfold merge_top
  rw [merge_step_lookup]
  have hbase : alook [("fetchedAtMs", fetched), ("source", sourceVal),
      ("rates", ratesVal)] k = none := by
    simp [alook, Ne.symm h1, Ne.symm h2, Ne.symm h3]
  rw [hbase]

/-- C9: for every record, the full update pipeline modifies at most the
fields price, usdPrice and change24h — every other per-record field survives
unmodified into the output record with the same key — and in the top-level
output object every template field other than fetchedAtMs, source (both
rewritten by main) and rates (whose records the first half governs) survives
unmodified. -/
theorem pipeline_frame :
    (∀ (rates out : Rates) (bonbast : List (String × Int))
        (crypto : List (String × ℚ × ℚ)),
      run_pipeline rates bonbast crypto = some out →
      ∀ k r', alook out k = some r' → ∃ r, alook rates k = some r ∧
        ∀ f, f ≠ "price" → f ≠ "usdPrice" → f ≠ "change24h" →
          alook r' f = alook r f) ∧
    (∀ (template : List (String × JVal)) (fetched sourceVal ratesVal : JVal)
        (k : String), k ≠ "fetchedAtMs" → k ≠ "source" → k ≠ "rates" →
      alook (merge_top template fetched sourceVal ratesVal) k =
        alook template k) := by
  constructor
  · intro rates out b c h k r' hr'
    exact RatesFrame_run_pipeline h k r' hr'
  · exact merge_top_preserves

/-- The concrete template used by the C9 witness. -/
def ratesC9 : Rates :=
  [("usd", [("kind", JVal.vstr "currency"), ("price", JVal.vint 2),
            ("title", JVal.vstr "US Dollar")]),
   ("btc", [("kind", JVal.vstr "crypto"), ("price", JVal.vint 0),
            ("usdPrice", JVal.vint 0), ("title", JVal.vstr "Bitcoin")])]

/-- Witness for C9: across a full concrete pipeline run the btc record's
title survives unchanged, and an unknown top-level field survives the
top-level merge. -/
theorem pipeline_frame_witness :
    alook ((alook ((run_pipeline ratesC9 [("Gold Ounce", 12)]
        [("Bitcoin", (3, 1/100))]).getD []) "btc").getD []) "title" =
      some (JVal.vstr "Bitcoin") ∧
    alook (merge_top [("schemaVersion", JVal.vint 2)] JVal.vnull JVal.vnull
        JVal.vnull) "schemaVersion" = some (JVal.vint 2) := by
  constructor
  · obtain ⟨r, hr, hf⟩ := pipeline_frame.1 ratesC9
      ((run_pipeline ratesC9 [("Gold Ounce", 12)] [("Bitcoin", (3, 1/100))]).getD [])
      [("Gold Ounce", 12)] [("Bitcoin", (3, 1/100))] rfl "btc"
      ((alook ((run_pipeline ratesC9 [("Gold Ounce", 12)]
          [("Bitcoin", (3, 1/100))]).getD []) "btc").getD [])
      rfl
    have hrr : r = [("kind", JVal.vstr "crypto"), ("price", JVal.vint 0),
        ("usdPrice", JVal.vint 0), ("title", JVal.vstr "Bitcoin")] := by
      have h2 : alook ratesC9 "btc" = some [("kind", JVal.vstr "crypto"),
          ("price", JVal.vint 0), ("usdPrice", JVal.vint 0),
          ("title", JVal.vstr "Bitcoin")] := rfl
      rw [h2] at hr
      exact (Option.some.inj hr).symm
    rw [hf "title" (by decide) (by decide) (by decide), hrr]
    rfl
  · rw [pipeline_frame.2 [("schemaVersion", JVal.vint 2)] JVal.vnull JVal.vnull
      JVal.vnull "schemaVersion" (by decide) (by decide) (by decide)]
    rfl

/-! ## C6: the validator's rejection conditions -/

theorem kind_ok_iff (r : Fields) : kind_ok r = true ↔ ¬ kind_bad_amended r := by
  unfold kind_ok kind_bad_amended
  by_cases h0 : kindStr r = ""
  · simp [h0]
  · by_cases h1 : kindStr r = "currency"
    · simp [h0, h1]
    · by_cases h2 : kindStr r = "crypto"
      · simp [h0, h1, h2]
      · by_cases h3 : kindStr r = "gold"
        · simp [h0, h1, h2, h3]
        · simp [h0, h1, h2, h3]

theorem unit_ok_iff (r : Fields) : unit_ok r = true ↔ ¬ unit_bad_claim r := by
  unfold unit_ok unit_bad_claim
  cases hu : alook r "unit" with
  | none => simp
  | some v =>
    cases v with
    | vint n =>
      simp only [Option.getD_some]
      constructor
      · intro h hcontra
        obtain ⟨v', hv', hbad⟩ := hcontra
        exact hbad ⟨n, by simpa using h, by simpa using hv'.symm⟩
      · intro h
        by_contra hn
        refine h ⟨JVal.vint n, rfl, ?_⟩
        rintro ⟨m, hm, hmv⟩
        have : n = m := JVal.vint.inj hmv
        subst this
        exact hn (by simpa using hm)
    | vflt q => simp
    | vstr s => simp
    | vnull => simp
    | vobj fs => simp
    | varr l => simp

theorem price_ok_iff (r : Fields) : price_ok r = true ↔ ¬ price_bad_claim r := by
  unfold price_ok price_bad_claim
  cases hp : alook r "price" with
  | none => simp
  | some v => cases v <;> simp [numVal]

theorem record_reason_none_iff (p : String × JVal) :
    record_reason p = none ↔ ¬ record_bad_amended p := by
  obtain ⟨k, v⟩ := p
  cases v with
  | vobj r =>
    have hobj : ¬ not_an_object (JVal.vobj r) := by
      intro h
      exact h r rfl
    constructor
    · intro h hbad
      unfold record_reason at h
      rcases hbad with hbad | ⟨fs, hfs, hbad⟩
      · exact hobj hbad
      · have hfsr : r = fs := JVal.vobj.inj hfs
        subst hfsr
        by_cases hk : kind_ok r
        · by_cases hun : unit_ok r
          · by_cases hpr : price_ok r
            · rcases hbad with hbad | hbad | hbad
              · exact (kind_ok_iff r).mp hk hbad
              · exact (unit_ok_iff r).mp hun hbad
              · exact (price_ok_iff r).mp hpr hbad
            · rw [Bool.not_eq_true] at hpr
              simp [hk, hun, hpr] at h
          · rw [Bool.not_eq_true] at hun
            simp [hk, hun] at h
        · rw [Bool.not_eq_true] at hk
          simp [hk] at h
    · intro hgood
      unfold record_reason
      have hk : kind_ok r = true := by
        by_contra hk
        rw [Bool.not_eq_true] at hk
        refine hgood (Or.inr ⟨r, rfl, Or.inl ?_⟩)
        by_contra hbad
        rw [← kind_ok_iff] at hbad
        rw [hbad] at hk
        cases hk
      have hun : unit_ok r = true := by
        by_contra hun
        rw [Bool.not_eq_true] at hun
        refine hgood (Or.inr ⟨r, rfl, Or.inr (Or.inl ?_)⟩)
        by_contra hbad
        rw [← unit_ok_iff] at hbad
        rw [hbad] at hun
        cases hun
      have hpr : price_ok r = true := by
        by_contra hpr
        rw [Bool.not_eq_true] at hpr
        refine hgood (Or.inr ⟨r, rfl, Or.inr (Or.inr ?_)⟩)
        by_contra hbad
        rw [← price_ok_iff] at hbad
        rw [hbad] at hpr
        cases hpr
      simp [hk, hun, hpr]
  | vint n =>
    simp only [record_reason]
    constructor
    · intro h; cases h
    · intro h
      exact absurd (Or.inl (fun fs hc => by cases hc)) h
  | vflt q =>
    simp only [record_reason]
    constructor
    · intro h; cases h
    · intro h
      exact absurd (Or.inl (fun fs hc => by cases hc)) h
  | vstr s =>
    simp only [record_reason]
    constructor
    · intro h; cases h
    · intro h
      exact absurd (Or.inl (fun fs hc => by cases hc)) h
  | vnull =>
    simp only [record_reason]
    constructor
    · intro h; cases h
    · intro h
      exact absurd (Or.inl (fun fs hc => by cases hc)) h
  | varr l =>
    simp only [record_reason]
    constructor
    · intro h; cases h
    · intro h
      exact absurd (Or.inl (fun fs hc => by cases hc)) h

theorem find_bad_none_iff :
    ∀ l : List (String × JVal),
      find_bad l = none ↔ ∀ p ∈ l, ¬ record_bad_amended p := by
  intro l
  induction l with
  | nil => simp [find_bad]
  | cons p t ih =>
    unfold find_bad
    cases hr : record_reason p with
    | some m =>
      constructor
      · intro h; cases h
      · intro h
        have := (record_reason_none_iff p).mpr (h p (by simp))
        rw [hr] at this
        cases this
    | none =>
      constructor
      · intro h q hq
        rcases List.mem_cons.mp hq with hq | hq
        · subst hq
          exact (record_reason_none_iff q).mp hr
        · exact (ih.mp h) q hq
      · intro h
        exact ih.mpr (fun q hq => h q (List.mem_cons_of_mem p hq))

theorem validate_reject_iff_amended (rates : List (String × JVal)) :
    (validate_payload rates).1 = false ↔ rejects_spec_amended rates := by
  unfold validate_payload rejects_spec_amended
  by_cases he : rates.isEmpty
  · have hnil : rates = [] := by simpa [List.isEmpty_iff] using he
    subst hnil
    simp
  · rw [Bool.not_eq_true] at he
    have hne : rates ≠ [] := by simpa [List.isEmpty_iff] using he
    rw [he]
    simp only [Bool.false_eq_true, if_false]
    by_cases hl : rates.length < 80
    · rw [if_pos hl]
      exact iff_of_true rfl (Or.inr (Or.inl (by omega)))
    · rw [if_neg hl]
      cases hf : find_bad rates with
      | some msg =>
        refine iff_of_true rfl (Or.inr (Or.inr ?_))
        by_contra hnone
        push_neg at hnone
        have : find_bad rates = none :=
          (find_bad_none_iff rates).mpr (fun p hp => hnone p hp)
        rw [hf] at this
        cases this
      | none =>
        refine iff_of_false (by simp) ?_
        rintro (h | h | ⟨p, hp, hbad⟩)
        · exact hne h
        · omega
        · exact ((find_bad_none_iff rates).mp hf) p hp hbad

/-- A well-formed record for the boundary fixtures of C6. -/
def valid_record : JVal :=
  JVal.vobj [("kind", JVal.vstr "currency"), ("unit", JVal.vint 1),
             ("price", JVal.vint 1)]

/-- `n` distinct, individually valid records. -/
def mk_rates (n : Nat) : List (String × JVal) :=
  (List.range n).map (fun i => ("k" ++ toString i, valid_record))

/-- The C6 counterexample record set: 80 records, all valid to the code, one
of which carries the empty-string kind. -/
def kindEmptyRates : List (String × JVal) :=
  ("bad", JVal.vobj [("kind", JVal.vstr ""), ("price", JVal.vint 1)]) ::
    mk_rates 79

/-- Counterexample to C6 as stated: a record whose kind is the empty string —
present and outside the set of allowed kinds, so the claim's "if and only if"
demands rejection — is accepted by `validate_payload` (the code treats a
falsy kind as absent: `if kind and kind not in ...`). -/
theorem validate_kind_counterexample :
    (validate_payload kindEmptyRates).1 = true ∧
      rejects_spec_claim kindEmptyRates ∧
      ¬ ((validate_payload kindEmptyRates).1 = false ↔
          rejects_spec_claim kindEmptyRates) := by
  have h1 : (validate_payload kindEmptyRates).1 = true := rfl
  have h2 : rejects_spec_claim kindEmptyRates := by
    refine Or.inr (Or.inr ⟨("bad", JVal.vobj [("kind", JVal.vstr ""),
      ("price", JVal.vint 1)]), List.mem_cons_self _ _, ?_⟩)
    refine Or.inr ⟨[("kind", JVal.vstr ""), ("price", JVal.vint 1)], rfl,
      Or.inl ?_⟩
    exact ⟨JVal.vstr "", rfl, by simp, by simp, by simp⟩
  refine ⟨h1, h2, fun hiff => ?_⟩
  have := hiff.mpr h2
  rw [h1] at this
  cases this

/-- C6 (amended): `validate_payload` rejects if and only if the record set is
empty, or has 79 or fewer records, or some record is not an object, or some
record's kind coerces to a nonempty string outside the set currency, crypto,
gold (a falsy kind — empty string, null, zero — counts as absent), or some
record carries a unit that is not a positive integer, or some record's price
is missing or non-numeric.  In particular exactly 80 otherwise-valid records
pass the count check, while 79 are rejected. -/
theorem validate_reject_iff :
    (∀ rates : List (String × JVal),
      (validate_payload rates).1 = false ↔ rejects_spec_amended rates) ∧
      (validate_payload (mk_rates 80)).1 = true ∧
      (validate_payload (mk_rates 79)).1 = false := by
  refine ⟨validate_reject_iff_amended, rfl, rfl⟩

end PriceScraper
